import Mathlib

/-!
Verification of the coverage-highlighter core against its source.

The development shallowly embeds the three core subsystems of the
repository:

* `LineTracker` (src/src/lineTracker.ts): line-drift tracking over three
  finite sets of 1-based line numbers, with a persisted per-file offset
  map.  TypeScript `Set<number>` becomes `Finset Int` (iteration order of
  a JS set never influences the resulting set here), `Map<number,number>`
  becomes an association list `List (Int × Int)` with JS `Map` semantics
  (insertion order preserved, `set` updates in place).  The class keys all
  of its state by file path; every claim is about a single file's slot, so
  the embedding models one file's state (`FileState`) and notes where the
  original indexes by path.
* the path utilities (src/unnamed/part_003 and the copy at the top of
  src/src/classificationManager.ts): paths are JS strings, embedded as
  `List Char` so that `split`/`join`/`replace` are fully transparent.
* `ClassificationManager` (src/src/classificationManager.ts): group
  storage `Map<"category:reason", ClassifiedLine[]>` and the secondary
  index `Map<"suffix:line", ClassifiedLine>`.  Both JS string keys are
  concatenations whose parts cannot collide (the category alphabet and a
  rendered line number contain no separator), so the embedding uses the
  corresponding pairs as keys.
* the parser tail of `parseCoverageXmlContent` (src/unnamed/part_003):
  the XML library itself is external; the embedding starts from the list
  of `functionCoverage` records the library hands back and models
  `parseLineList` (including JavaScript `parseInt` semantics) and the
  per-file union of line sets.
-/

namespace CovHi

/-! ## JS `Map` on association lists

`Map.get` / `Map.set` / `Map.delete` / `Map.has` with JS semantics:
insertion order is preserved, `set` on an existing key updates the entry
in place, `delete` removes the entry. -/

def mapGet {κ α : Type} [DecidableEq κ] (k : κ) : List (κ × α) → Option α
  | [] => none
  | (k', v) :: rest => if k' = k then some v else mapGet k rest

def mapHas {κ α : Type} [DecidableEq κ] (k : κ) (m : List (κ × α)) : Bool :=
  (mapGet k m).isSome

def mapSet {κ α : Type} [DecidableEq κ] (k : κ) (v : α) : List (κ × α) → List (κ × α)
  | [] => [(k, v)]
  | (k', v') :: rest => if k' = k then (k', v) :: rest else (k', v') :: mapSet k v rest

def mapDelete {κ α : Type} [DecidableEq κ] (k : κ) : List (κ × α) → List (κ × α)
  | [] => []
  | (k', v') :: rest => if k' = k then rest else (k', v') :: mapDelete k rest

/-! ## Line tracker (src/src/lineTracker.ts) -/

/-- `TrackedLines` (lineTracker.ts:4-8): the three per-file line sets. -/
structure TrackedLines where
  coveredLines : Finset Int
  uncoveredLines : Finset Int
  partialCoveredLines : Finset Int
  deriving DecidableEq

/-- Per-file slot of the `LineTracker` class state (lineTracker.ts:16-23):
the entry of `trackedFiles`, `originalLines` and `lineOffsets` for one
file path (`none` = the map has no entry for this path). -/
structure FileState where
  tracked : Option TrackedLines
  original : Option TrackedLines
  offsets : Option (List (Int × Int))
  deriving DecidableEq

def emptyFileState : FileState := ⟨none, none, none⟩

/-- `registerFile` (lineTracker.ts:28-49): deep-copies `lines` into both
`trackedFiles` and `originalLines`; initialises the offset map only when
absent (`if (!this.lineOffsets.has(filePath))`). -/
def registerFile (st : FileState) (lines : TrackedLines) : FileState :=
  { tracked := some lines
    original := some lines
    offsets := some (st.offsets.getD []) }

/-- One line's fate under `adjustLines` (lineTracker.ts:137-166): the body
of the `for (const line of lineSet)` loop, `none` when the line is
dropped. -/
def adjustLine (startLine endLine delta line : Int) : Option Int :=
  if line < startLine then some line
  else if endLine < line then some (line + delta)
  else if 0 ≤ delta then some (line + delta)
  else if startLine ≤ line + delta then some (line + delta)
  else none

/-- `adjustLines` (lineTracker.ts:137-166) as a set transformation. -/
def adjustLines (lineSet : Finset Int) (startLine endLine delta : Int) : Finset Int :=
  lineSet.biUnion fun line => (adjustLine startLine endLine delta line).toFinset

/-- `removeLines` (lineTracker.ts:171-175): delete every line in the
inclusive range `[startLine, endLine]`. -/
def removeLines (lineSet : Finset Int) (startLine endLine : Int) : Finset Int :=
  lineSet.filter fun line => ¬(startLine ≤ line ∧ line ≤ endLine)

/-- `updateOffsets` (lineTracker.ts:109-132): add `delta` to the stored
value of every key `>= startLine`, then merge an entry of `delta` at
`startLine` itself (`|| 0`).  Creates the map when the file had none. -/
def updateOffsets (offsets : Option (List (Int × Int))) (startLine delta : Int) :
    List (Int × Int) :=
  let offs := offsets.getD []
  let newOffsets := offs.map fun p => if startLine ≤ p.1 then (p.1, p.2 + delta) else p
  mapSet startLine ((mapGet startLine newOffsets).getD 0 + delta) newOffsets

/-- One element of `event.contentChanges` as `handleDocumentChange`
(lineTracker.ts:61-104) reads it: `startLine`/`endLine` are the 1-based
range lines (`change.range.start.line + 1`, `change.range.end.line + 1`)
and `newLineCount` is the newline count of the inserted text plus one. -/
structure ContentChange where
  startLine : Int
  endLine : Int
  newLineCount : Int
  deriving DecidableEq

/-- Body of the `for (const change of event.contentChanges)` loop of
`handleDocumentChange` (lineTracker.ts:71-101): adjust the three sets and
the offsets when the line delta is nonzero, then remove the deleted
physical range when the edit is a net deletion. -/
def changeStep (tracked : TrackedLines) (offsets : Option (List (Int × Int)))
    (changed : Bool) (c : ContentChange) :
    TrackedLines × Option (List (Int × Int)) × Bool :=
  let oldLineCount := c.endLine - c.startLine + 1
  let newLineCount := c.newLineCount
  let lineDelta := newLineCount - oldLineCount
  let step1 :=
    if lineDelta ≠ 0 then
      (⟨adjustLines tracked.coveredLines c.startLine c.endLine lineDelta,
        adjustLines tracked.uncoveredLines c.startLine c.endLine lineDelta,
        adjustLines tracked.partialCoveredLines c.startLine c.endLine lineDelta⟩,
       some (updateOffsets offsets c.startLine lineDelta), true)
    else (tracked, offsets, changed)
  if newLineCount < oldLineCount then
    let deleteStart := c.startLine
    let deleteEnd := c.startLine + (oldLineCount - newLineCount) - 1
    (⟨removeLines step1.1.coveredLines deleteStart deleteEnd,
      removeLines step1.1.uncoveredLines deleteStart deleteEnd,
      removeLines step1.1.partialCoveredLines deleteStart deleteEnd⟩,
     step1.2.1, true)
  else step1

/-- `handleDocumentChange` (lineTracker.ts:61-104) for one file: no-op on
an untracked file, otherwise the loop over `event.contentChanges`;
returns the new state and the `changed` flag. -/
def handleDocumentChange (st : FileState) (changes : List ContentChange) :
    FileState × Bool :=
  match st.tracked with
  | none => (st, false)
  | some tracked =>
      let r := changes.foldl (fun acc c => changeStep acc.1 acc.2.1 acc.2.2 c)
        (tracked, st.offsets, false)
      ({ st with tracked := some r.1, offsets := r.2.1 }, r.2.2)

/-- `exportOffsets` (lineTracker.ts:213-215) restricted to one file's
entry. -/
def exportOffsets (st : FileState) : Option (List (Int × Int)) := st.offsets

/-- `importOffsets` (lineTracker.ts:220-228) restricted to one file:
overwrites this file's offset map with the imported data (the string
round-trip of the keys is the identity on integer keys). -/
def importOffsets (st : FileState) (data : List (Int × Int)) : FileState :=
  { st with offsets := some data }

/-- `applyOffsetsToFile` (lineTracker.ts:233-269) on a file's line sets:
each line is shifted by the sum of the deltas of all offset keys `<=` the
line, and kept when the result is positive.  Identity when the file has
no offsets or an empty offset map. -/
def applyOffsetsToFile (st : FileState) (coverage : TrackedLines) : TrackedLines :=
  match st.offsets with
  | none => coverage
  | some offsets =>
      if offsets = [] then coverage
      else
        let calculateOffset := fun (line : Int) =>
          ((offsets.filter fun p => p.1 ≤ line).map Prod.snd).sum
        let adjustLineSet := fun (s : Finset Int) =>
          s.biUnion fun line =>
            let newLine := line + calculateOffset line
            if 0 < newLine then {newLine} else ∅
        ⟨adjustLineSet coverage.coveredLines,
         adjustLineSet coverage.uncoveredLines,
         adjustLineSet coverage.partialCoveredLines⟩

/-- The registration flow of the extension (src/src/extension.ts:1269-1276):
apply the cached offsets to the matched coverage, then register the
adjusted sets with the tracker. -/
def registerWithCachedOffsets (st : FileState) (coverage : TrackedLines) : FileState :=
  registerFile st (applyOffsetsToFile st coverage)

end CovHi

namespace CovHi

/-! ## Helper lemmas for the tracker -/

lemma mem_adjustLines {S : Finset Int} {s e d x : Int} :
    x ∈ adjustLines S s e d ↔ ∃ l ∈ S, adjustLine s e d l = some x := by
  simp [adjustLines, Option.mem_toFinset, Option.mem_def]

lemma mem_removeLines {S : Finset Int} {a b x : Int} :
    x ∈ removeLines S a b ↔ x ∈ S ∧ ¬(a ≤ x ∧ x ≤ b) := by
  simp [removeLines]

lemma updateOffsets_empty (s d : Int) : updateOffsets (some []) s d = [(s, d)] := by
  simp [updateOffsets, mapSet, mapGet]

/-- Replaying a one-entry offset map `[(s, d)]` with `0 < d` over a set of
positive lines agrees with `adjustLines` for the edit that produced the
entry. -/
lemma replay_single (S : Finset Int) (s e d : Int)
    (hpos : ∀ l ∈ S, 1 ≤ l) (hse : s ≤ e) (hd : 0 < d) :
    (S.biUnion fun line =>
        if 0 < line + (List.map Prod.snd (List.filter (fun p => decide (p.1 ≤ line)) [(s, d)])).sum
        then {line + (List.map Prod.snd (List.filter (fun p => decide (p.1 ≤ line)) [(s, d)])).sum}
        else ∅)
      = adjustLines S s e d := by
  ext x
  simp only [Finset.mem_biUnion, mem_adjustLines, adjustLine]
  constructor
  · rintro ⟨l, hl, hmem⟩
    have hl1 := hpos l hl
    by_cases hsl : s ≤ l
    · simp only [List.filter_cons, hsl, decide_true_eq_true, decide_eq_true_eq, if_pos,
        List.filter_nil, List.map_cons, List.map_nil, List.sum_cons, List.sum_nil, add_zero] at hmem
      rw [if_pos (by omega)] at hmem
      rw [Finset.mem_singleton] at hmem
      refine ⟨l, hl, ?_⟩
      subst hmem
      split_ifs <;> first | rfl | (exfalso; omega)
    · simp only [List.filter_cons, decide_eq_true_eq, hsl, if_false, List.filter_nil,
        List.map_nil, List.sum_nil, add_zero] at hmem
      rw [if_pos (by omega)] at hmem
      rw [Finset.mem_singleton] at hmem
      refine ⟨l, hl, ?_⟩
      subst hmem
      split_ifs <;> first | rfl | (exfalso; omega)
  · rintro ⟨l, hl, hx⟩
    have hl1 := hpos l hl
    refine ⟨l, hl, ?_⟩
    split_ifs at hx with a1 a2 a3
    · have := Option.some.inj hx
      have hsl : ¬(s ≤ l) := by omega
      simp only [List.filter_cons, decide_eq_true_eq, hsl, if_false, List.filter_nil,
        List.map_nil, List.sum_nil, add_zero]
      rw [if_pos (by omega), Finset.mem_singleton]
      omega
    · have := Option.some.inj hx
      have hsl : s ≤ l := by omega
      simp only [List.filter_cons, decide_eq_true_eq, hsl, if_true, List.filter_nil,
        List.map_cons, List.map_nil, List.sum_cons, List.sum_nil, add_zero]
      rw [if_pos (by omega), Finset.mem_singleton]
      omega
    · have := Option.some.inj hx
      have hsl : s ≤ l := by omega
      simp only [List.filter_cons, decide_eq_true_eq, hsl, if_true, List.filter_nil,
        List.map_cons, List.map_nil, List.sum_cons, List.sum_nil, add_zero]
      rw [if_pos (by omega), Finset.mem_singleton]
      omega
    · exact absurd a3 (by omega)

/-- C1, counterexample: after registering `uncoveredLines = {11}` and
deleting line 11 (the editor reports the range as lines 11-12 with empty
replacement text), live tracking drops the line entirely, while exporting
the accumulated offset map `{11 ↦ -1}` and replaying it over the fresh
baseline `{11}` yields `{10}`.  The two current line sets differ, so the
round trip does not reproduce live tracking. -/
theorem C1_counterexample :
    ((handleDocumentChange (registerFile emptyFileState ⟨∅, {11}, ∅⟩) [⟨11, 12, 1⟩]).1.tracked.map
        (fun t => t.uncoveredLines)) = some ∅
    ∧ (applyOffsetsToFile
        (importOffsets (registerFile emptyFileState ⟨∅, {11}, ∅⟩)
          ((exportOffsets (handleDocumentChange (registerFile emptyFileState ⟨∅, {11}, ∅⟩)
              [⟨11, 12, 1⟩]).1).getD []))
        ⟨∅, {11}, ∅⟩).uncoveredLines = {10}
    ∧ (∅ : Finset Int) ≠ ({10} : Finset Int) := by
  refine ⟨by decide, by decide, by decide⟩

/-- C1, amended: the export/import/replay round trip does reproduce the
live `currentLines` for a history of at most one edit that does not
delete lines (`oldLineSpan ≤ newLineSpan`), over a baseline of positive
line numbers; with net deletions (or several interleaved edits) the
replay can differ, as the counterexample shows. -/
theorem C1_roundtrip_single_nondeleting_edit (L : TrackedLines) (c : ContentChange)
    (hpos : ∀ l ∈ L.coveredLines ∪ L.uncoveredLines ∪ L.partialCoveredLines, 1 ≤ l)
    (hs : 1 ≤ c.startLine) (hse : c.startLine ≤ c.endLine)
    (hins : c.endLine - c.startLine + 1 ≤ c.newLineCount) :
    applyOffsetsToFile
        (importOffsets (registerFile emptyFileState L)
          ((exportOffsets (handleDocumentChange (registerFile emptyFileState L) [c]).1).getD []))
        L
      = (handleDocumentChange (registerFile emptyFileState L) [c]).1.tracked.getD ⟨∅, ∅, ∅⟩ := by
  obtain ⟨s, e, n⟩ := c
  obtain ⟨C, U, P⟩ := L
  simp only [Finset.mem_union] at hpos
  dsimp only at hs hse hins
  simp only [handleDocumentChange, changeStep, registerFile, emptyFileState, exportOffsets,
    importOffsets, List.foldl]
  split_ifs with h1 h2
  all_goals first
    | exact absurd h1 (by omega)
    | (simp [applyOffsetsToFile]; done)
    | skip
  dsimp only
  simp only [Option.getD_none, Option.getD_some]
  rw [updateOffsets_empty]
  simp only [applyOffsetsToFile]
  rw [if_neg (by simp)]
  simp only [Option.getD, TrackedLines.mk.injEq]
  have hdpos : 0 < n - (e - s + 1) := by omega
  refine ⟨?_, ?_, ?_⟩
  · exact replay_single C s e _ (fun l hl => hpos l (by tauto)) hse hdpos
  · exact replay_single U s e _ (fun l hl => hpos l (by tauto)) hse hdpos
  · exact replay_single P s e _ (fun l hl => hpos l (by tauto)) hse hdpos

/-- C1, witness: the amended round trip at the concrete baseline
`uncoveredLines = {10, 11, 12}` and the insertion of two lines at line 5
(spec property "Insertion shift"). -/
theorem C1_witness :
    ((∀ l ∈ (⟨∅, {10, 11, 12}, ∅⟩ : TrackedLines).coveredLines ∪
        (⟨∅, {10, 11, 12}, ∅⟩ : TrackedLines).uncoveredLines ∪
        (⟨∅, {10, 11, 12}, ∅⟩ : TrackedLines).partialCoveredLines, 1 ≤ l)
      ∧ (1 : Int) ≤ 5 ∧ (5 : Int) ≤ 5 ∧ (5 : Int) - 5 + 1 ≤ 3)
    ∧ applyOffsetsToFile
        (importOffsets (registerFile emptyFileState ⟨∅, {10, 11, 12}, ∅⟩)
          ((exportOffsets (handleDocumentChange (registerFile emptyFileState ⟨∅, {10, 11, 12}, ∅⟩)
              [⟨5, 5, 3⟩]).1).getD []))
        ⟨∅, {10, 11, 12}, ∅⟩
      = (handleDocumentChange (registerFile emptyFileState ⟨∅, {10, 11, 12}, ∅⟩)
          [⟨5, 5, 3⟩]).1.tracked.getD ⟨∅, ∅, ∅⟩ :=
  ⟨⟨by decide, by decide, by decide, by decide⟩,
   C1_roundtrip_single_nondeleting_edit ⟨∅, {10, 11, 12}, ∅⟩ ⟨5, 5, 3⟩
     (by decide) (by decide) (by decide) (by decide)⟩

/-- C2, counterexample: deleting line 11 from the baseline
`uncoveredLines = {10, 11, 12}` yields `{10}`, not the claimed
`{10, 11}`: after `adjustLines` renumbers old line 12 to 11, the
`removeLines` pass deletes post-shift line numbers inside the removed
range `[11, 11]`, so the renumbered line is dropped as well.  Both the
editor's encoding of the deletion (range lines 11-12, empty text) and
the spec's literal parameters (`start = end = 11`, `oldSpan = 1`,
`newSpan = 0`) give the same result. -/
theorem C2_counterexample :
    ((handleDocumentChange (registerFile emptyFileState ⟨∅, {10, 11, 12}, ∅⟩)
        [⟨11, 12, 1⟩]).1.tracked.map (fun t => t.uncoveredLines)) = some {10}
    ∧ ((handleDocumentChange (registerFile emptyFileState ⟨∅, {10, 11, 12}, ∅⟩)
        [⟨11, 11, 0⟩]).1.tracked.map (fun t => t.uncoveredLines)) = some {10}
    ∧ ({10} : Finset Int) ≠ ({10, 11} : Finset Int) := by
  refine ⟨by decide, by decide, by decide⟩

/-- C2, amended: deleting one full line at position `s` (editor range
lines `s` to `s + 1`, empty replacement) drops both the deleted line `s`
and its successor `s + 1` — the successor is first renumbered to `s` by
the shift rule and then removed because `removeLines` deletes post-shift
line numbers inside the removed physical range `[s, s]`; every line above
`s + 1` shifts down by one, and lines below `s` are untouched.  On
`{10, 11, 12}` with `s = 11` this gives `{10}`, not `{10, 11}`. -/
theorem C2_deletion_removes_shifted_line (S : Finset Int) (s : Int) :
    ((handleDocumentChange (registerFile emptyFileState ⟨∅, S, ∅⟩)
        [⟨s, s + 1, 1⟩]).1.tracked.getD ⟨∅, ∅, ∅⟩).uncoveredLines
      = S.filter (fun l => l < s) ∪ (S.filter fun l => s + 1 < l).image (fun l => l - 1) := by
  simp only [handleDocumentChange, registerFile, emptyFileState, changeStep, List.foldl]
  norm_num
  ext x
  simp only [mem_removeLines, mem_adjustLines, Finset.mem_union, Finset.mem_filter,
    Finset.mem_image, adjustLine]
  constructor
  · rintro ⟨⟨l, hl, hx⟩, hno⟩
    split_ifs at hx with h1 h2 h3 h4
    all_goals first
      | exact Option.noConfusion hx
      | (have hx' := Option.some.inj hx
         first
           | exact Or.inl ⟨hx' ▸ hl, by omega⟩
           | exact Or.inr ⟨l, ⟨hl, by omega⟩, by omega⟩
           | exact absurd (⟨by omega, by omega⟩ : s ≤ x ∧ x ≤ s) hno)
  · rintro (⟨hx, hlt⟩ | ⟨l, ⟨hl, hlt⟩, rfl⟩)
    · refine ⟨⟨x, hx, ?_⟩, by omega⟩
      split_ifs <;> first | rfl | (exfalso; omega)
    · refine ⟨⟨l, hl, ?_⟩, by omega⟩
      split_ifs <;> first | (simp only [Option.some.injEq]; omega) | (exfalso; omega)

/-- C3: `registerFile` sets both the tracked (current) and original
(baseline) sets to a copy of its argument and preserves an existing
offset map; the extension's registration flow applies the cached offsets
to the incoming coverage before registering, so the exposed current
lines reflect previously accumulated drift, and running the whole flow
twice with the same fresh baseline produces the identical state
(idempotence with respect to stored drift). -/
theorem C3_register_and_cached_offsets (st : FileState) (c : TrackedLines) :
    (registerFile st c).tracked = some c
    ∧ (registerFile st c).original = some c
    ∧ (registerFile st c).offsets = some (st.offsets.getD [])
    ∧ (registerWithCachedOffsets st c).tracked = some (applyOffsetsToFile st c)
    ∧ registerWithCachedOffsets (registerWithCachedOffsets st c) c
        = registerWithCachedOffsets st c := by
  refine ⟨rfl, rfl, rfl, rfl, ?_⟩
  obtain ⟨t, o, offs⟩ := st
  cases offs with
  | none => simp [registerWithCachedOffsets, registerFile, applyOffsetsToFile]
  | some m =>
      cases m with
      | nil => simp [registerWithCachedOffsets, registerFile, applyOffsetsToFile]
      | cons p rest => simp [registerWithCachedOffsets, registerFile, applyOffsetsToFile]

end CovHi

namespace CovHi

/-! ## `getUncoveredBlock` (lineTracker.ts:284-317) -/

/-- Upward scan of `getUncoveredBlock` (lineTracker.ts:302-307): the
`while (currentLine >= 1 && uncoveredSet.has(currentLine))` loop; the
`unshift` calls make the collected lines come out in ascending order.
Termination: the loop counter decreases and is bounded below by 1. -/
def scanUp (s : Finset Int) (cur : Int) : List Int :=
  if 1 ≤ cur ∧ cur ∈ s then scanUp s (cur - 1) ++ [cur] else []
termination_by cur.toNat
decreasing_by omega

/-- Downward scan of `getUncoveredBlock` (lineTracker.ts:309-314): the
`while (uncoveredSet.has(currentLine))` loop.  Termination: the set of
members at or above the counter shrinks at every step. -/
def scanDown (s : Finset Int) (cur : Int) : List Int :=
  if cur ∈ s then cur :: scanDown s (cur + 1) else []
termination_by (s.filter fun x => cur ≤ x).card
decreasing_by
  rename_i h
  refine Finset.card_lt_card ?_
  constructor
  · intro x hx
    simp only [Finset.mem_filter] at hx ⊢
    exact ⟨hx.1, by omega⟩
  · intro hsub
    have hmem : cur ∈ s.filter fun x => cur ≤ x := by simp [h]
    have h2 := hsub hmem
    simp at h2

/-- `getUncoveredBlock` (lineTracker.ts:284-317): `[line]` for an
untracked file or a line outside `uncovered ∪ partial`, else the
upward scan, the line itself, and the downward scan. -/
def getUncoveredBlock (st : FileState) (line : Int) : List Int :=
  match st.tracked with
  | none => [line]
  | some tracked =>
      let uncoveredSet := tracked.uncoveredLines ∪ tracked.partialCoveredLines
      if line ∈ uncoveredSet then
        scanUp uncoveredSet (line - 1) ++ line :: scanDown uncoveredSet (line + 1)
      else [line]

/-- Integer interval `[lo, hi]` as an ascending list. -/
def intRange (lo hi : Int) : List Int :=
  (List.range (hi + 1 - lo).toNat).map fun i : Nat => lo + (i : Int)

lemma mem_intRange {lo hi x : Int} : x ∈ intRange lo hi ↔ lo ≤ x ∧ x ≤ hi := by
  simp only [intRange, List.mem_map, List.mem_range]
  constructor
  · rintro ⟨i, hi2, rfl⟩; omega
  · rintro ⟨h1, h2⟩; exact ⟨(x - lo).toNat, by omega, by omega⟩

lemma intRange_empty {lo hi : Int} (h : hi < lo) : intRange lo hi = [] := by
  simp only [intRange]
  rw [show (hi + 1 - lo).toNat = 0 by omega]
  simp

lemma intRange_snoc {lo hi : Int} (h : lo ≤ hi) :
    intRange lo hi = intRange lo (hi - 1) ++ [hi] := by
  simp only [intRange]
  rw [show (hi + 1 - lo).toNat = (hi - 1 + 1 - lo).toNat + 1 by omega, List.range_succ]
  simp only [List.map_append, List.map_cons, List.map_nil]
  congr 2
  omega

lemma intRange_cons {lo hi : Int} (h : lo ≤ hi) :
    intRange lo hi = lo :: intRange (lo + 1) hi := by
  simp only [intRange]
  rw [show (hi + 1 - lo).toNat = (hi + 1 - (lo + 1)).toNat + 1 by omega,
    List.range_succ_eq_map]
  simp only [List.map_cons, List.map_map]
  refine congrArg₂ _ (by omega) ?_
  refine List.map_congr_left fun i _ => ?_
  simp
  omega

/-- What the upward scan returns: a maximal ascending run of members of
`u` ending at `cur` (empty when `cur` is no member), whose lower end is
preceded by a non-member. -/
lemma scanUp_spec (u : Finset Int) (hpos : ∀ x ∈ u, 1 ≤ x) (cur : Int) :
    ∃ lo, lo ≤ cur + 1 ∧ scanUp u cur = intRange lo cur ∧
      (∀ m, lo ≤ m → m ≤ cur → m ∈ u) ∧ (lo - 1) ∉ u := by
  induction cur using scanUp.induct u with
  | case1 cur h ih =>
      obtain ⟨lo, hlo, heq, hmem, hstop⟩ := ih
      refine ⟨lo, by omega, ?_, ?_, hstop⟩
      · rw [scanUp, if_pos h, heq, ← intRange_snoc (by omega)]
      · intro m h1 h2
        rcases eq_or_lt_of_le h2 with rfl | hlt
        · exact h.2
        · exact hmem m h1 (by omega)
  | case2 cur h =>
      refine ⟨cur + 1, le_refl _, ?_, by omega, ?_⟩
      · rw [scanUp, if_neg h, intRange_empty (by omega)]
      · rcases not_and_or.mp h with h2 | h2
        · intro hmem; exact h2 (by simpa using hpos _ hmem)
        · simpa using h2

/-- What the downward scan returns: a maximal ascending run of members of
`u` starting at `cur` (empty when `cur` is no member), whose upper end is
followed by a non-member. -/
lemma scanDown_spec (u : Finset Int) (cur : Int) :
    ∃ hi, cur - 1 ≤ hi ∧ scanDown u cur = intRange cur hi ∧
      (∀ m, cur ≤ m → m ≤ hi → m ∈ u) ∧ (hi + 1) ∉ u := by
  induction cur using scanDown.induct u with
  | case1 cur h ih =>
      obtain ⟨hi, hhi, heq, hmem, hstop⟩ := ih
      refine ⟨hi, by omega, ?_, ?_, hstop⟩
      · rw [scanDown, if_pos h, heq, ← intRange_cons (by omega)]
      · intro m h1 h2
        rcases eq_or_lt_of_le h1 with rfl | hlt
        · exact h
        · exact hmem m (by omega) h2
  | case2 cur h =>
      refine ⟨cur - 1, le_refl _, ?_, by omega, by simpa using h⟩
      rw [scanDown, if_neg h, intRange_empty (by omega)]

lemma intRange_glue {lo mid hi : Int} (h1 : lo ≤ mid) (h2 : mid ≤ hi) :
    intRange lo (mid - 1) ++ mid :: intRange (mid + 1) hi = intRange lo hi := by
  have key : ∀ n : Nat, ∀ lo mid : Int, lo ≤ mid → mid - lo = (n : Int) →
      ∀ hi : Int, mid ≤ hi →
      intRange lo (mid - 1) ++ mid :: intRange (mid + 1) hi = intRange lo hi := by
    intro n
    induction n with
    | zero =>
        intro lo mid hlo hn hi hhi
        have : lo = mid := by omega
        subst this
        rw [intRange_empty (by omega), List.nil_append, ← intRange_cons (by omega)]
    | succ k ih =>
        intro lo mid hlo hn hi hhi
        rw [intRange_cons (by omega : lo ≤ mid - 1), intRange_cons (by omega : lo ≤ hi)]
        simp only [List.cons_append, List.cons.injEq, true_and]
        exact ih (lo + 1) mid (by omega) (by omega) hi hhi
  rcases eq_or_lt_of_le h1 with rfl | hlt
  · rw [intRange_empty (by omega), List.nil_append, ← intRange_cons (by omega)]
  · exact key (mid - lo).toNat lo mid h1 (by omega) hi h2

/-- C9: `getUncoveredBlock` returns `[line]` for an untracked file and
for a line outside `uncovered ∪ partial`; for a member line (over sets of
1-based line numbers) it returns the maximal contiguous run of lines
containing `line` all of which lie in `uncovered ∪ partial`: an interval
`[lo, hi]` around `line`, entirely inside the union, with both
`lo - 1` and `hi + 1` outside it. -/
theorem C9_uncovered_block (st : FileState) (line : Int) :
    (st.tracked = none → getUncoveredBlock st line = [line])
    ∧ ∀ t, st.tracked = some t →
        (∀ x ∈ t.uncoveredLines ∪ t.partialCoveredLines, 1 ≤ x) →
        ((line ∉ t.uncoveredLines ∪ t.partialCoveredLines →
            getUncoveredBlock st line = [line])
         ∧ (line ∈ t.uncoveredLines ∪ t.partialCoveredLines →
            ∃ lo hi, lo ≤ line ∧ line ≤ hi
              ∧ getUncoveredBlock st line = intRange lo hi
              ∧ (∀ m, lo ≤ m → m ≤ hi → m ∈ t.uncoveredLines ∪ t.partialCoveredLines)
              ∧ (lo - 1) ∉ t.uncoveredLines ∪ t.partialCoveredLines
              ∧ (hi + 1) ∉ t.uncoveredLines ∪ t.partialCoveredLines)) := by
  constructor
  · intro h
    simp only [getUncoveredBlock, h]
  · intro t ht hpos
    constructor
    · intro hnot
      simp only [getUncoveredBlock, ht]
      rw [if_neg hnot]
    · intro hmem
      obtain ⟨lo, hlo, hequ, hmemu, hstopu⟩ :=
        scanUp_spec (t.uncoveredLines ∪ t.partialCoveredLines) hpos (line - 1)
      obtain ⟨hi, hhi, heqd, hmemd, hstopd⟩ :=
        scanDown_spec (t.uncoveredLines ∪ t.partialCoveredLines) (line + 1)
      refine ⟨lo, hi, by omega, by omega, ?_, ?_, hstopu, hstopd⟩
      · simp only [getUncoveredBlock, ht]
        rw [if_pos hmem, hequ, heqd]
        exact intRange_glue (by omega) (by omega)
      · intro m h1 h2
        rcases lt_trichotomy m line with hm | rfl | hm
        · exact hmemu m h1 (by omega)
        · exact hmem
        · exact hmemd m (by omega) h2

/-- C9, witness: the block expansion scenario of the spec,
`uncoveredLines = {20, 21, 22}`, `partialLines = {23}`: at line 21 the
block is the interval `[20, 23]` (so `[20, 21, 22, 23]`), and at line 19
the block is `[19]`. -/
theorem C9_witness :
    ((⟨some ⟨∅, {20, 21, 22}, {23}⟩, none, none⟩ : FileState).tracked
        = some (⟨∅, {20, 21, 22}, {23}⟩ : TrackedLines)
      ∧ (∀ x ∈ (⟨∅, {20, 21, 22}, {23}⟩ : TrackedLines).uncoveredLines ∪
          (⟨∅, {20, 21, 22}, {23}⟩ : TrackedLines).partialCoveredLines, 1 ≤ x)
      ∧ (21 : Int) ∈ (⟨∅, {20, 21, 22}, {23}⟩ : TrackedLines).uncoveredLines ∪
          (⟨∅, {20, 21, 22}, {23}⟩ : TrackedLines).partialCoveredLines
      ∧ (19 : Int) ∉ (⟨∅, {20, 21, 22}, {23}⟩ : TrackedLines).uncoveredLines ∪
          (⟨∅, {20, 21, 22}, {23}⟩ : TrackedLines).partialCoveredLines)
    ∧ (∃ lo hi, lo ≤ (21 : Int) ∧ (21 : Int) ≤ hi
        ∧ getUncoveredBlock ⟨some ⟨∅, {20, 21, 22}, {23}⟩, none, none⟩ 21 = intRange lo hi
        ∧ (∀ m, lo ≤ m → m ≤ hi →
            m ∈ (⟨∅, {20, 21, 22}, {23}⟩ : TrackedLines).uncoveredLines ∪
              (⟨∅, {20, 21, 22}, {23}⟩ : TrackedLines).partialCoveredLines)
        ∧ (lo - 1) ∉ (⟨∅, {20, 21, 22}, {23}⟩ : TrackedLines).uncoveredLines ∪
            (⟨∅, {20, 21, 22}, {23}⟩ : TrackedLines).partialCoveredLines
        ∧ (hi + 1) ∉ (⟨∅, {20, 21, 22}, {23}⟩ : TrackedLines).uncoveredLines ∪
            (⟨∅, {20, 21, 22}, {23}⟩ : TrackedLines).partialCoveredLines)
    ∧ getUncoveredBlock ⟨some ⟨∅, {20, 21, 22}, {23}⟩, none, none⟩ 19 = [19] :=
  ⟨⟨rfl, by decide, by decide, by decide⟩,
   (((C9_uncovered_block ⟨some ⟨∅, {20, 21, 22}, {23}⟩, none, none⟩ 21).2
      ⟨∅, {20, 21, 22}, {23}⟩ rfl (by decide)).2 (by decide)),
   (((C9_uncovered_block ⟨some ⟨∅, {20, 21, 22}, {23}⟩, none, none⟩ 19).2
      ⟨∅, {20, 21, 22}, {23}⟩ rfl (by decide)).1 (by decide))⟩

/-- Positivity of all three tracked sets: every line number is `>= 1`. -/
def positiveLines (t : TrackedLines) : Prop :=
  ∀ l ∈ t.coveredLines ∪ t.uncoveredLines ∪ t.partialCoveredLines, 1 ≤ l

lemma adjustLines_pos {S : Finset Int} {s e d : Int}
    (hS : ∀ l ∈ S, 1 ≤ l) (hs : 1 ≤ s) (hse : s ≤ e) (hd : s - e ≤ d) :
    ∀ x ∈ adjustLines S s e d, 1 ≤ x := by
  intro x hx
  rw [mem_adjustLines] at hx
  obtain ⟨l, hl, hal⟩ := hx
  have := hS l hl
  unfold adjustLine at hal
  split_ifs at hal <;> (have h9 := Option.some.inj hal; omega)

lemma changeStep_positive {t : TrackedLines} {offs : Option (List (Int × Int))} {b : Bool}
    {c : ContentChange} (hs : 1 ≤ c.startLine) (hse : c.startLine ≤ c.endLine)
    (hn : 1 ≤ c.newLineCount) (ht : positiveLines t) :
    positiveLines (changeStep t offs b c).1 := by
  obtain ⟨s, e, n⟩ := c
  obtain ⟨C, U, P⟩ := t
  dsimp only at hs hse hn
  simp only [positiveLines, Finset.mem_union] at ht ⊢
  have hC : ∀ l ∈ C, 1 ≤ l := fun l hl => ht l (by tauto)
  have hU : ∀ l ∈ U, 1 ≤ l := fun l hl => ht l (by tauto)
  have hP : ∀ l ∈ P, 1 ≤ l := fun l hl => ht l (by tauto)
  simp only [changeStep]
  split_ifs with h1 h2 <;> intro l hl <;>
    rcases hl with (hl | hl) | hl <;>
    simp only [removeLines, Finset.mem_filter] at hl <;>
    first
      | (exact adjustLines_pos hC hs hse (by omega) _ hl.1)
      | (exact adjustLines_pos hU hs hse (by omega) _ hl.1)
      | (exact adjustLines_pos hP hs hse (by omega) _ hl.1)
      | (exact adjustLines_pos hC hs hse (by omega) _ hl)
      | (exact adjustLines_pos hU hs hse (by omega) _ hl)
      | (exact adjustLines_pos hP hs hse (by omega) _ hl)
      | exact hC l hl.1
      | exact hU l hl.1
      | exact hP l hl.1
      | exact hC l hl
      | exact hU l hl
      | exact hP l hl

lemma foldl_changeStep_positive :
    ∀ (changes : List ContentChange) (acc : TrackedLines × Option (List (Int × Int)) × Bool),
      (∀ c ∈ changes, 1 ≤ c.startLine ∧ c.startLine ≤ c.endLine ∧ 1 ≤ c.newLineCount) →
      positiveLines acc.1 →
      positiveLines (changes.foldl (fun a c => changeStep a.1 a.2.1 a.2.2 c) acc).1 := by
  intro changes
  induction changes with
  | nil => intro acc _ hacc; exact hacc
  | cons c cs ih =>
      intro acc hc hacc
      simp only [List.foldl]
      refine ih _ (fun c2 hc2 => hc c2 (by simp [hc2])) ?_
      exact changeStep_positive (hc c (by simp)).1 (hc c (by simp)).2.1 (hc c (by simp)).2.2 hacc

/-- C10: over a tracked file whose three sets hold only line numbers
`>= 1`, any `handleDocumentChange` event whose changes have 1-based
`startLine >= 1`, a well-formed range (`startLine <= endLine`) and at
least one resulting line (`newLineCount >= 1`, as the source computes
`newlines + 1`) leaves every line number in all three sets `>= 1`. -/
theorem C10_lines_stay_positive (st : FileState) (changes : List ContentChange)
    (hc : ∀ c ∈ changes, 1 ≤ c.startLine ∧ c.startLine ≤ c.endLine ∧ 1 ≤ c.newLineCount)
    (t : TrackedLines) (h : st.tracked = some t) (ht : positiveLines t) :
    ∀ t2, (handleDocumentChange st changes).1.tracked = some t2 → positiveLines t2 := by
  intro t2 h2
  simp only [handleDocumentChange, h] at h2
  have := foldl_changeStep_positive changes (t, st.offsets, false) hc ht
  rw [← Option.some.inj h2]
  exact this

/-- C10, witness: the invariant at the baseline `covered = {1}`,
`uncovered = {5}`, `partial = {9}` after deleting one line in the range
2-3: the tracked sets become `{1}`, `{4}`, `{8}`, all positive. -/
theorem C10_witness :
    ((∀ c ∈ [(⟨2, 3, 1⟩ : ContentChange)],
        1 ≤ c.startLine ∧ c.startLine ≤ c.endLine ∧ 1 ≤ c.newLineCount)
      ∧ (registerFile emptyFileState ⟨{1}, {5}, {9}⟩).tracked = some ⟨{1}, {5}, {9}⟩
      ∧ positiveLines ⟨{1}, {5}, {9}⟩
      ∧ (handleDocumentChange (registerFile emptyFileState ⟨{1}, {5}, {9}⟩)
          [⟨2, 3, 1⟩]).1.tracked = some ⟨{1}, {4}, {8}⟩)
    ∧ positiveLines ⟨{1}, {4}, {8}⟩ :=
  ⟨⟨by decide, by decide, by (unfold positiveLines; decide), by decide⟩,
   C10_lines_stay_positive (registerFile emptyFileState ⟨{1}, {5}, {9}⟩) [⟨2, 3, 1⟩]
     (by decide) ⟨{1}, {5}, {9}⟩ (by decide) (by unfold positiveLines; decide)
     ⟨{1}, {4}, {8}⟩ (by decide)⟩

end CovHi

namespace CovHi

/-! ## Path utilities (src/unnamed/part_003:129-162; the classification
manager carries a private copy of `getPathSuffix` with the same body,
src/src/classificationManager.ts:4-15).  Paths are JS strings, modelled
as `List Char`. -/

/-- JavaScript `String.split(sep)` on a single-character separator:
`#separators + 1` pieces, empty pieces kept. -/
def splitOnSep (sep : Char) : List Char → List (List Char)
  | [] => [[]]
  | c :: cs =>
      match splitOnSep sep cs with
      | [] => [[]]
      | s :: rest => if c = sep then [] :: s :: rest else (c :: s) :: rest

/-- JavaScript `Array.join(sep)`. -/
def joinSep (sep : Char) : List (List Char) → List Char
  | [] => []
  | [a] => a
  | a :: rest => a ++ sep :: joinSep sep rest

/-- `normalizePath` (part_003:130-132): backslashes to forward slashes,
then lowercase. -/
def normalizePath (p : List Char) : List Char :=
  (p.map fun c => if c = '\\' then '/' else c).map Char.toLower

/-- The `parts` of `getPathSuffix` (part_003:135-139): split the
normalized path on `/` and drop empty segments. -/
def pathParts (p : List Char) : List (List Char) :=
  (splitOnSep '/' (normalizePath p)).filter fun s => !s.isEmpty

/-- JavaScript `Array.slice(-d)` for `d >= 1`: the last `min d length`
elements. -/
def takeRight {α : Type} (d : Nat) (l : List α) : List α := l.drop (l.length - d)

/-- `getPathSuffix` (part_003:135-139): the last `depth` normalized
segments joined with `/`. -/
def getPathSuffix (p : List Char) (depth : Nat) : List Char :=
  joinSep '/' (takeRight depth (pathParts p))

lemma splitOnSep_ne_nil (sep : Char) (l : List Char) : splitOnSep sep l ≠ [] := by
  cases l with
  | nil => simp [splitOnSep]
  | cons c cs =>
      simp only [splitOnSep]
      cases splitOnSep sep cs with
      | nil => simp
      | cons s rest => split_ifs <;> simp

lemma sep_not_mem_split (sep : Char) (l : List Char) :
    ∀ s ∈ splitOnSep sep l, sep ∉ s := by
  induction l with
  | nil => intro s hs; simp [splitOnSep] at hs; simp [hs]
  | cons c cs ih =>
      intro s hs
      simp only [splitOnSep] at hs
      cases h : splitOnSep sep cs with
      | nil => exact absurd h (splitOnSep_ne_nil sep cs)
      | cons s0 rest =>
          rw [h] at hs
          split_ifs at hs with hc
          · rcases List.mem_cons.mp hs with rfl | hs2
            · simp
            · exact ih s (h ▸ hs2)
          · rcases List.mem_cons.mp hs with rfl | hs2
            · intro hmem
              rcases List.mem_cons.mp hmem with rfl | hmem2
              · exact hc rfl
              · exact ih s0 (h ▸ List.mem_cons_self s0 rest) hmem2
            · exact ih s (h ▸ List.mem_cons.mpr (Or.inr hs2))

lemma splitOnSep_sepFree {sep : Char} {a : List Char} (h : sep ∉ a) :
    splitOnSep sep a = [a] := by
  induction a with
  | nil => rfl
  | cons c cs ih =>
      have hc : c ≠ sep := fun hc2 => h (hc2 ▸ List.mem_cons_self c cs)
      have ih2 := ih (fun hm => h (List.mem_cons.mpr (Or.inr hm)))
      simp only [splitOnSep, ih2]
      rw [if_neg hc]

lemma splitOnSep_append {sep : Char} {a : List Char} (h : sep ∉ a) (t : List Char) :
    splitOnSep sep (a ++ sep :: t) = a :: splitOnSep sep t := by
  induction a with
  | nil =>
      simp only [List.nil_append, splitOnSep]
      cases ht : splitOnSep sep t with
      | nil => exact absurd ht (splitOnSep_ne_nil sep t)
      | cons s rest => simp
  | cons c cs ih =>
      have hc : c ≠ sep := fun hc2 => h (hc2 ▸ List.mem_cons_self c cs)
      have ih2 := ih (fun hm => h (List.mem_cons.mpr (Or.inr hm)))
      rw [List.cons_append, splitOnSep, ih2]
      simp only []
      rw [if_neg hc]

/-- Splitting a `/`-join of nonempty `/`-free segments and dropping empty
pieces recovers the segments: the key round-trip behind suffix
comparison at different depths. -/
lemma filter_split_join {sep : Char} :
    ∀ L : List (List Char), (∀ x ∈ L, x ≠ [] ∧ sep ∉ x) →
      (splitOnSep sep (joinSep sep L)).filter (fun s => !s.isEmpty) = L := by
  intro L
  induction L with
  | nil => intro _; simp [joinSep, splitOnSep]
  | cons a rest ih =>
      intro h
      cases rest with
      | nil =>
          have ha := h a (by simp)
          have he : (!a.isEmpty) = true := by simp [ha.1]
          simp only [joinSep, splitOnSep_sepFree ha.2]
          simp [List.filter, he]
      | cons b rest2 =>
          have ha := h a (by simp)
          have hrest : ∀ x ∈ b :: rest2, x ≠ [] ∧ sep ∉ x :=
            fun x hx => h x (List.mem_cons.mpr (Or.inr hx))
          simp only [joinSep, splitOnSep_append ha.2]
          rw [List.filter_cons]
          rw [if_pos (by simpa [List.isEmpty_iff] using ha.1)]
          exact congrArg _ (ih hrest)

lemma takeRight_takeRight {α : Type} (d k : Nat) (h : d ≤ k) (l : List α) :
    takeRight d (takeRight k l) = takeRight d l := by
  simp only [takeRight, List.drop_drop, List.length_drop]
  congr 1
  omega

lemma pathParts_props (p : List Char) : ∀ s ∈ pathParts p, s ≠ [] ∧ '/' ∉ s := by
  intro s hs
  simp only [pathParts, List.mem_filter] at hs
  refine ⟨by simpa using hs.2, sep_not_mem_split '/' _ s hs.1⟩

lemma joinSep_inj_on {A B : List (List Char)}
    (hA : ∀ x ∈ A, x ≠ [] ∧ '/' ∉ x) (hB : ∀ x ∈ B, x ≠ [] ∧ '/' ∉ x)
    (h : joinSep '/' A = joinSep '/' B) : A = B := by
  have := filter_split_join A hA
  rw [h, filter_split_join B hB] at this
  exact this.symm

/-- Agreement of normalized suffixes at depth `k >= 2` forces agreement
at depth 2. -/
lemma suffix_transfer {p q : List Char} {k : Nat} (h2 : 2 ≤ k)
    (h : getPathSuffix p k = getPathSuffix q k) : getPathSuffix p 2 = getPathSuffix q 2 := by
  have hp : ∀ x ∈ takeRight k (pathParts p), x ≠ [] ∧ '/' ∉ x :=
    fun x hx => pathParts_props p x (List.mem_of_mem_drop hx)
  have hq : ∀ x ∈ takeRight k (pathParts q), x ≠ [] ∧ '/' ∉ x :=
    fun x hx => pathParts_props q x (List.mem_of_mem_drop hx)
  have heq : takeRight k (pathParts p) = takeRight k (pathParts q) :=
    joinSep_inj_on hp hq h
  have h2p := takeRight_takeRight 2 k h2 (pathParts p)
  have h2q := takeRight_takeRight 2 k h2 (pathParts q)
  unfold getPathSuffix
  rw [← h2p, ← h2q, heq]

/-- `FileCoverage` (part_003:16-21): per-file line sets keyed by the
report path. -/
structure FileCoverage where
  fileName : List Char
  coveredLines : Finset Int
  uncoveredLines : Finset Int
  partialCoveredLines : Finset Int
  deriving DecidableEq

/-- `findMatchingCoverage` (part_003:142-162): compare the depth-`d`
suffix of the local path against every report entry (map iteration
order), recurse with `d - 1` while `d > 2`, give up below the floor. -/
def findMatchingCoverage (localFilePath : List Char)
    (coverageFiles : List (List Char × FileCoverage)) (matchDepth : Nat) :
    Option FileCoverage :=
  let localSuffix := getPathSuffix localFilePath matchDepth
  match coverageFiles.find? fun pr => decide (getPathSuffix pr.1 matchDepth = localSuffix) with
  | some pr => some pr.2
  | none =>
      if 2 < matchDepth then findMatchingCoverage localFilePath coverageFiles (matchDepth - 1)
      else none
termination_by matchDepth
decreasing_by omega

/-- The single-depth pass of `findMatchingCoverage`: first entry whose
depth-`d` suffix equals the local path's. -/
def firstMatchAt (localFilePath : List Char)
    (coverageFiles : List (List Char × FileCoverage)) (depth : Nat) : Option FileCoverage :=
  (coverageFiles.find? fun pr =>
    decide (getPathSuffix pr.1 depth = getPathSuffix localFilePath depth)).map Prod.snd

lemma findMatching_step (l : List Char) (files : List (List Char × FileCoverage))
    (d : Nat) (h : 2 < d) :
    findMatchingCoverage l files d
      = (firstMatchAt l files d).orElse (fun _ => findMatchingCoverage l files (d - 1)) := by
  rw [findMatchingCoverage]
  cases hf : files.find? fun pr => decide (getPathSuffix pr.1 d = getPathSuffix l d) with
  | some pr => simp [firstMatchAt, hf, Option.orElse]
  | none => simp [firstMatchAt, hf, Option.orElse, if_pos h]

lemma findMatching_base (l : List Char) (files : List (List Char × FileCoverage)) :
    findMatchingCoverage l files 2 = firstMatchAt l files 2 := by
  rw [findMatchingCoverage]
  cases hf : files.find? fun pr => decide (getPathSuffix pr.1 2 = getPathSuffix l 2) with
  | some pr => simp [firstMatchAt, hf]
  | none => simp [firstMatchAt, hf]

lemma findMatching_sound (l : List Char) (files : List (List Char × FileCoverage)) :
    ∀ d, 2 ≤ d → ∀ cov, findMatchingCoverage l files d = some cov →
      ∃ p, (p, cov) ∈ files ∧ getPathSuffix p 2 = getPathSuffix l 2 := by
  intro d
  induction d using Nat.strong_induction_on with
  | _ d ih =>
      intro hd cov hfind
      rw [findMatchingCoverage] at hfind
      cases hf : files.find? fun pr => decide (getPathSuffix pr.1 d = getPathSuffix l d) with
      | some pr =>
          rw [hf] at hfind
          simp only [Option.some.injEq] at hfind
          have hmem := List.mem_of_find?_eq_some hf
          have hpred := List.find?_some hf
          simp only [decide_eq_true_eq] at hpred
          subst hfind
          exact ⟨pr.1, by simpa using hmem, suffix_transfer hd hpred⟩
      | none =>
          rw [hf] at hfind
          simp only at hfind
          split_ifs at hfind with hgt
          all_goals first
            | exact ih (d - 1) (by omega) (by omega) cov hfind
            | exact absurd hfind (by simp)

lemma findMatching_complete (l : List Char) (files : List (List Char × FileCoverage)) :
    ∀ d, 2 ≤ d →
      (∃ pr ∈ files, getPathSuffix pr.1 2 = getPathSuffix l 2) →
      (findMatchingCoverage l files d).isSome := by
  intro d
  induction d using Nat.strong_induction_on with
  | _ d ih =>
      intro hd hex
      rw [findMatchingCoverage]
      cases hf : files.find? fun pr => decide (getPathSuffix pr.1 d = getPathSuffix l d) with
      | some pr => simp
      | none =>
          simp only
          split_ifs with hgt
          · exact ih (d - 1) (by omega) (by omega) hex
          · obtain ⟨pr, hpr, hsuf⟩ := hex
            have hd2 : d = 2 := by omega
            subst hd2
            have := List.find?_eq_none.mp hf pr hpr
            simp only [decide_eq_true_eq] at this
            exact absurd hsuf this

/-- C4: `findMatchingCoverage` tries suffix depths 5, 4, 3, 2 in order
(first conjunct, the unfolded ladder) and reports nothing below the
floor; any entry it returns suffix-matches the local path at depth 2
(so an entry whose 2-segment suffix differs is never returned), and when
some entry matches at a depth `2 <= k <= 5` a match is returned. -/
theorem C4_suffix_degradation (l : List Char) (files : List (List Char × FileCoverage)) :
    (findMatchingCoverage l files 5
        = (firstMatchAt l files 5).orElse (fun _ =>
            (firstMatchAt l files 4).orElse (fun _ =>
              (firstMatchAt l files 3).orElse (fun _ => firstMatchAt l files 2))))
    ∧ (∀ cov, findMatchingCoverage l files 5 = some cov →
        ∃ p, (p, cov) ∈ files ∧ getPathSuffix p 2 = getPathSuffix l 2)
    ∧ (∀ p c k, (p, c) ∈ files → 2 ≤ k → k ≤ 5 →
        getPathSuffix p k = getPathSuffix l k → (findMatchingCoverage l files 5).isSome) := by
  refine ⟨?_, ?_, ?_⟩
  · have h5 := findMatching_step l files 5 (by norm_num)
    have h4 := findMatching_step l files 4 (by norm_num)
    have h3 := findMatching_step l files 3 (by norm_num)
    have hb := findMatching_base l files
    norm_num at h5 h4 h3
    rw [h5]
    exact congrArg _ (funext fun _ => by
      rw [h4]
      exact congrArg _ (funext fun _ => by rw [h3, hb]))
  · exact fun cov h => findMatching_sound l files 5 (by norm_num) cov h
  · intro p c k hmem hk2 hk5 hsuf
    exact findMatching_complete l files 5 (by norm_num)
      ⟨(p, c), hmem, suffix_transfer hk2 hsuf⟩

/-- C4, witness: a report entry `x/a/b.c` does not match the local path
`z/q/a/b.c` at depths 5, 4, 3 but does at the 2-segment floor `a/b.c`,
and `findMatchingCoverage` finds it. -/
theorem C4_witness :
    ((("x/a/b.c".toList, (⟨"x/a/b.c".toList, ∅, ∅, ∅⟩ : FileCoverage)) ∈
        [(("x/a/b.c".toList : List Char), (⟨"x/a/b.c".toList, ∅, ∅, ∅⟩ : FileCoverage))]
      ∧ (2 ≤ 2) ∧ (2 ≤ 5)
      ∧ getPathSuffix "x/a/b.c".toList 2 = getPathSuffix "z/q/a/b.c".toList 2)
    ∧ (findMatchingCoverage "z/q/a/b.c".toList
        [(("x/a/b.c".toList : List Char), (⟨"x/a/b.c".toList, ∅, ∅, ∅⟩ : FileCoverage))]
        5).isSome) :=
  ⟨⟨by decide, by decide, by decide, by decide⟩,
   (C4_suffix_degradation "z/q/a/b.c".toList
       [(("x/a/b.c".toList : List Char), (⟨"x/a/b.c".toList, ∅, ∅, ∅⟩ : FileCoverage))]).2.2
     "x/a/b.c".toList (⟨"x/a/b.c".toList, ∅, ∅, ∅⟩ : FileCoverage) 2
     (by decide) (by decide) (by decide) (by decide)⟩

end CovHi

namespace CovHi

/-! ## Classification manager (src/src/classificationManager.ts) -/

/-- The closed category vocabulary
(classificationManager.ts:22: `'document' | 'comment-planned' | 'cover-planned'`). -/
inductive Category
  | document
  | commentPlanned
  | coverPlanned
  deriving DecidableEq

/-- `ClassifiedLine` (classificationManager.ts:17-23). -/
structure ClassifiedLine where
  filePath : List Char
  fileName : List Char
  line : Int
  reason : List Char
  category : Category
  deriving DecidableEq

/-- Node's `path.basename` as used at classificationManager.ts:154: the
last nonempty path segment (separator-splitting model; the claims never
inspect this field). -/
def basename (p : List Char) : List Char :=
  ((splitOnSep '/' (p.map fun c => if c = '\\' then '/' else c)).filter
    fun s => !s.isEmpty).getLastD p

/-- The mutable state of `ClassificationManager`
(classificationManager.ts:34, 42): the `category:reason`-keyed group map
and the `suffix:line`-keyed index.  The string keys are modelled by the
pairs they concatenate (neither a category nor a rendered line number
can contain the separator, so the pairing is faithful). -/
structure CMState where
  classifications : List ((Category × List Char) × List ClassifiedLine)
  classificationIndex : List ((List Char × Int) × ClassifiedLine)
  deriving DecidableEq

def emptyCM : CMState := ⟨[], []⟩

/-- `getIndexKey` (classificationManager.ts:52-55): default depth-5
suffix plus the line number. -/
def getIndexKey (filePath : List Char) (line : Int) : List Char × Int :=
  (getPathSuffix filePath 5, line)

/-- `pathsMatch` (classificationManager.ts:11-15). -/
def pathsMatch (p1 p2 : List Char) : Bool :=
  decide (getPathSuffix p1 5 = getPathSuffix p2 5)

/-- `isClassified` (classificationManager.ts:350-353): O(1) index
lookup. -/
def isClassified (st : CMState) (filePath : List Char) (line : Int) : Option ClassifiedLine :=
  mapGet (getIndexKey filePath line) st.classificationIndex

/-- `classifyLine` (classificationManager.ts:147-178): ensure the
`category:reason` group exists, skip when an entry with the same exact
path and line is already in it, otherwise push the entry and mirror it
into the index. -/
def classifyLine (st : CMState) (filePath : List Char) (line : Int)
    (category : Category) (reason : List Char) : CMState :=
  let key := (category, reason)
  let classification : ClassifiedLine :=
    ⟨filePath, basename filePath, line, reason, category⟩
  let cls0 :=
    if mapHas key st.classifications then st.classifications
    else mapSet key [] st.classifications
  let list := (mapGet key cls0).getD []
  if list.any fun c => decide (c.filePath = filePath ∧ c.line = line) then
    { st with classifications := cls0 }
  else
    { classifications := mapSet key (list ++ [classification]) cls0
      classificationIndex :=
        mapSet (getIndexKey filePath line) classification st.classificationIndex }

/-- `removeClassification` (classificationManager.ts:197-212): walk every
group, remove the first suffix-matching entry of each, delete the key
from the index using the stored entry's own path, and drop groups left
empty. -/
def removeClassification (st : CMState) (filePath : List Char) (line : Int) : CMState :=
  st.classifications.foldl
    (fun acc pr =>
      match pr.2.findIdx? fun c => pathsMatch c.filePath filePath && decide (c.line = line) with
      | none => { acc with classifications := acc.classifications ++ [pr] }
      | some i =>
          let actualFilePath := (pr.2.getD i ⟨[], [], 0, [], Category.document⟩).filePath
          let newList := pr.2.eraseIdx i
          { classifications :=
              acc.classifications ++ (if newList.isEmpty then [] else [(pr.1, newList)])
            classificationIndex :=
              mapDelete (getIndexKey actualFilePath line) acc.classificationIndex })
    ⟨[], st.classificationIndex⟩

/-- `rebuildIndex` (classificationManager.ts:58-66): clear the index and
re-insert every stored entry, groups in map order, entries in list
order. -/
def rebuildIndex (st : CMState) : CMState :=
  { st with
    classificationIndex :=
      st.classifications.foldl
        (fun ix pr =>
          pr.2.foldl (fun ix2 item => mapSet (getIndexKey item.filePath item.line) item ix2) ix)
        [] }

/-- C5: classifying `(reportPath, line)` from a fresh store makes
`isClassified` hit the same entry through any suffix-matching
`localPath`; repeating the identical classification is a no-op on the
whole state, and storage then holds exactly one entry for that path and
line. -/
theorem C5_classify_idempotent_dual_lookup (reportPath localPath : List Char) (line : Int)
    (category : Category) (reason : List Char)
    (h : getPathSuffix localPath 5 = getPathSuffix reportPath 5) :
    isClassified (classifyLine emptyCM reportPath line category reason) localPath line
      = some ⟨reportPath, basename reportPath, line, reason, category⟩
    ∧ classifyLine (classifyLine emptyCM reportPath line category reason)
        reportPath line category reason
      = classifyLine emptyCM reportPath line category reason
    ∧ ((classifyLine emptyCM reportPath line category reason).classifications.map
        fun pr => pr.2.filter fun c => decide (c.filePath = reportPath ∧ c.line = line)).join
      = [⟨reportPath, basename reportPath, line, reason, category⟩] := by
  refine ⟨?_, ?_, ?_⟩
  · simp [classifyLine, emptyCM, mapHas, mapGet, mapSet, isClassified, getIndexKey, h]
  · simp [classifyLine, emptyCM, mapHas, mapGet, mapSet]
  · simp [classifyLine, emptyCM, mapHas, mapGet, mapSet]

/-- C5, witness: the dual-identity scenario with
`reportPath = C:\\proj\\a\\b\\c\\file.c` and
`localPath = /home/proj/a/b/c/file.c`, which share the depth-5
normalized suffix `proj/a/b/c/file.c`, at line 42 with category
`Document` and reason `ui`. -/
theorem C5_witness :
    (getPathSuffix "/home/proj/a/b/c/file.c".toList 5
        = getPathSuffix "C:\\proj\\a\\b\\c\\file.c".toList 5)
    ∧ (isClassified
        (classifyLine emptyCM "C:\\proj\\a\\b\\c\\file.c".toList 42 Category.document
          "ui".toList)
        "/home/proj/a/b/c/file.c".toList 42
      = some ⟨"C:\\proj\\a\\b\\c\\file.c".toList,
          basename "C:\\proj\\a\\b\\c\\file.c".toList, 42, "ui".toList,
          Category.document⟩
      ∧ classifyLine
          (classifyLine emptyCM "C:\\proj\\a\\b\\c\\file.c".toList 42 Category.document
            "ui".toList)
          "C:\\proj\\a\\b\\c\\file.c".toList 42 Category.document "ui".toList
        = classifyLine emptyCM "C:\\proj\\a\\b\\c\\file.c".toList 42 Category.document
            "ui".toList
      ∧ ((classifyLine emptyCM "C:\\proj\\a\\b\\c\\file.c".toList 42 Category.document
            "ui".toList).classifications.map
          fun pr => pr.2.filter fun c =>
            decide (c.filePath = "C:\\proj\\a\\b\\c\\file.c".toList ∧ c.line = 42)).join
        = [⟨"C:\\proj\\a\\b\\c\\file.c".toList,
            basename "C:\\proj\\a\\b\\c\\file.c".toList, 42, "ui".toList,
            Category.document⟩]) :=
  ⟨by decide,
   C5_classify_idempotent_dual_lookup "C:\\proj\\a\\b\\c\\file.c".toList
     "/home/proj/a/b/c/file.c".toList 42 Category.document "ui".toList (by decide)⟩

/-- C6: classify then remove through any suffix-matching path: from a
fresh store, `isClassified` afterwards misses under both path forms, the
`category:reason` group is gone, and the index coincides with what a
rebuild from the group storage would produce (both are empty) — index
and groups agree. -/
theorem C6_removal_complete (p p2 : List Char) (line : Int)
    (category : Category) (reason : List Char)
    (h : getPathSuffix p 5 = getPathSuffix p2 5) :
    isClassified (removeClassification (classifyLine emptyCM p line category reason) p2 line)
        p line = none
    ∧ isClassified (removeClassification (classifyLine emptyCM p line category reason) p2 line)
        p2 line = none
    ∧ mapGet (category, reason)
        (removeClassification (classifyLine emptyCM p line category reason) p2 line).classifications
      = none
    ∧ (rebuildIndex
        (removeClassification (classifyLine emptyCM p line category reason) p2 line)).classificationIndex
      = (removeClassification
          (classifyLine emptyCM p line category reason) p2 line).classificationIndex := by
  have hstate : removeClassification (classifyLine emptyCM p line category reason) p2 line
      = emptyCM := by
    simp [classifyLine, emptyCM, mapHas, mapGet, mapSet, mapDelete, removeClassification,
      List.findIdx?, pathsMatch, h, List.foldl, getIndexKey]
  rw [hstate]
  refine ⟨rfl, rfl, rfl, rfl⟩

/-- C6, witness: classify `C:\\proj\\a\\b\\c\\file.c` line 42 and remove it
through the suffix-matching local form `/home/proj/a/b/c/file.c`. -/
theorem C6_witness :
    (getPathSuffix "C:\\proj\\a\\b\\c\\file.c".toList 5
        = getPathSuffix "/home/proj/a/b/c/file.c".toList 5)
    ∧ (isClassified
        (removeClassification
          (classifyLine emptyCM "C:\\proj\\a\\b\\c\\file.c".toList 42 Category.document
            "ui".toList)
          "/home/proj/a/b/c/file.c".toList 42)
        "C:\\proj\\a\\b\\c\\file.c".toList 42 = none
      ∧ isClassified
          (removeClassification
            (classifyLine emptyCM "C:\\proj\\a\\b\\c\\file.c".toList 42 Category.document
              "ui".toList)
            "/home/proj/a/b/c/file.c".toList 42)
          "/home/proj/a/b/c/file.c".toList 42 = none
      ∧ mapGet (Category.document, "ui".toList)
          (removeClassification
            (classifyLine emptyCM "C:\\proj\\a\\b\\c\\file.c".toList 42 Category.document
              "ui".toList)
            "/home/proj/a/b/c/file.c".toList 42).classifications = none
      ∧ (rebuildIndex
          (removeClassification
            (classifyLine emptyCM "C:\\proj\\a\\b\\c\\file.c".toList 42 Category.document
              "ui".toList)
            "/home/proj/a/b/c/file.c".toList 42)).classificationIndex
        = (removeClassification
            (classifyLine emptyCM "C:\\proj\\a\\b\\c\\file.c".toList 42 Category.document
              "ui".toList)
            "/home/proj/a/b/c/file.c".toList 42).classificationIndex) :=
  ⟨by decide,
   C6_removal_complete "C:\\proj\\a\\b\\c\\file.c".toList
     "/home/proj/a/b/c/file.c".toList 42 Category.document "ui".toList (by decide)⟩

end CovHi


namespace CovHi


lemma mapGet_set_self {κ α : Type} [DecidableEq κ] (k : κ) (v : α) (m : List (κ × α)) :
    mapGet k (mapSet k v m) = some v := by
  induction m with
  | nil => simp [mapGet, mapSet]
  | cons p rest ih =>
      by_cases h : p.1 = k
      · simp [mapGet, mapSet, h]
      · simp [mapGet, mapSet, h, ih]

lemma mapGet_set_other {κ α : Type} [DecidableEq κ] {k k2 : κ} (h : k2 ≠ k) (v : α)
    (m : List (κ × α)) : mapGet k2 (mapSet k v m) = mapGet k2 m := by
  induction m with
  | nil => simp only [mapSet, mapGet]; rw [if_neg (fun hh => h hh.symm)]
  | cons p rest ih =>
      by_cases hp : p.1 = k
      · subst hp
        simp only [mapSet, if_pos rfl, mapGet]
        rw [if_neg (fun hh => h hh.symm), if_neg (fun hh => h hh.symm)]
      · simp only [mapSet, if_neg hp, mapGet]
        split_ifs with hpk
        · rfl
        · exact ih

lemma mapSet_of_get_none {κ α : Type} [DecidableEq κ] {k : κ} {m : List (κ × α)}
    (h : mapGet k m = none) (v : α) : mapSet k v m = m ++ [(k, v)] := by
  induction m with
  | nil => simp [mapSet]
  | cons p rest ih =>
      simp only [mapGet] at h
      split_ifs at h with hp
      all_goals first
        | exact absurd h (by simp)
        | simp only [mapSet, hp, if_false, ih h, List.cons_append]

lemma mapGet_eq_none_iff {κ α : Type} [DecidableEq κ] {k : κ} {m : List (κ × α)} :
    mapGet k m = none ↔ ∀ pr ∈ m, pr.1 ≠ k := by
  induction m with
  | nil => simp [mapGet]
  | cons p rest ih =>
      simp only [mapGet, List.mem_cons]
      split_ifs with hp
      · constructor
        · intro h; exact absurd h (by simp)
        · intro h; exact absurd hp (h p (Or.inl rfl))
      · rw [ih]
        constructor
        · intro h pr hpr
          rcases hpr with rfl | hpr
          · exact hp
          · exact h pr hpr
        · intro h pr hpr; exact h pr (Or.inr hpr)

lemma mapGet_eq_some_iff_of_nodup {κ α : Type} [DecidableEq κ] {k : κ} {v : α}
    {m : List (κ × α)} (hnd : (m.map Prod.fst).Nodup) :
    mapGet k m = some v ↔ (k, v) ∈ m := by
  induction m with
  | nil => simp [mapGet]
  | cons p rest ih =>
      simp only [List.map_cons, List.nodup_cons] at hnd
      simp only [mapGet, List.mem_cons]
      split_ifs with hp
      · subst hp
        constructor
        · rintro h
          exact Or.inl (by simpa using congrArg (Prod.mk p.1) (Option.some.inj h).symm ▸ rfl)
        · rintro (h | h)
          · rw [← h]
          · exact absurd (List.mem_map.mpr ⟨(p.1, v), h, rfl⟩) hnd.1
      · rw [ih hnd.2]
        constructor
        · exact Or.inr
        · rintro (h | h)
          · exact absurd (congrArg Prod.fst h).symm hp
          · exact h

lemma mapGet_congr_perm {κ α : Type} [DecidableEq κ] {m1 m2 : List (κ × α)}
    (hperm : m1.Perm m2) (hnd : (m1.map Prod.fst).Nodup) (k : κ) :
    mapGet k m1 = mapGet k m2 := by
  have hnd2 : (m2.map Prod.fst).Nodup := (hperm.map Prod.fst).nodup_iff.mp hnd
  cases h2 : mapGet k m2 with
  | some v =>
      rw [(mapGet_eq_some_iff_of_nodup hnd).mpr (hperm.mem_iff.mpr
        ((mapGet_eq_some_iff_of_nodup hnd2).mp h2))]
  | none =>
      rw [mapGet_eq_none_iff.mpr fun pr hpr =>
        mapGet_eq_none_iff.mp h2 pr (hperm.subset hpr)]

end CovHi

namespace CovHi

def flatItems (cls : List ((Category × List Char) × List ClassifiedLine)) :
    List ClassifiedLine :=
  (cls.map Prod.snd).join

lemma flatItems_nil : flatItems [] = [] := rfl

lemma flatItems_cons (q : (Category × List Char) × List ClassifiedLine)
    (rest : List ((Category × List Char) × List ClassifiedLine)) :
    flatItems (q :: rest) = q.2 ++ flatItems rest := by
  simp [flatItems]

lemma flatItems_append (a b : List ((Category × List Char) × List ClassifiedLine)) :
    flatItems (a ++ b) = flatItems a ++ flatItems b := by
  simp [flatItems]

lemma flatItems_set_perm {key : Category × List Char} {v : List ClassifiedLine}
    (c : ClassifiedLine) {m : List ((Category × List Char) × List ClassifiedLine)}
    (h : mapGet key m = some v) :
    (flatItems (mapSet key (v ++ [c]) m)).Perm (c :: flatItems m) := by
  induction m with
  | nil => simp [mapGet] at h
  | cons p rest ih =>
      simp only [mapGet] at h
      by_cases hp : p.1 = key
      · rw [if_pos hp] at h
        obtain rfl : p.2 = v := Option.some.inj h
        have hset : mapSet key (p.2 ++ [c]) (p :: rest) = (p.1, p.2 ++ [c]) :: rest := by
          simp [mapSet, hp]
        rw [hset, flatItems_cons, flatItems_cons]
        have he : (p.1, p.2 ++ [c]).2 ++ flatItems rest = p.2 ++ c :: flatItems rest := by simp
        rw [he]
        exact List.perm_middle
      · rw [if_neg hp] at h
        have hset : mapSet key (v ++ [c]) (p :: rest) = p :: mapSet key (v ++ [c]) rest := by
          simp [mapSet, hp]
        rw [hset, flatItems_cons, flatItems_cons]
        exact ((ih h).append_left p.2).trans List.perm_middle

lemma mem_flat_of_mapGet_some {key : Category × List Char} {v : List ClassifiedLine}
    {m : List ((Category × List Char) × List ClassifiedLine)}
    (h : mapGet key m = some v) : ∀ x ∈ v, x ∈ flatItems m := by
  induction m with
  | nil => simp [mapGet] at h
  | cons p rest ih =>
      simp only [mapGet] at h
      intro x hx
      rw [flatItems_cons, List.mem_append]
      by_cases hp : p.1 = key
      · rw [if_pos hp] at h
        exact Or.inl ((Option.some.inj h) ▸ hx)
      · rw [if_neg hp] at h
        exact Or.inr (ih h x hx)

def entryOf (p : List Char) (l : Int) (cat : Category) (r : List Char) : ClassifiedLine :=
  ⟨p, basename p, l, r, cat⟩

lemma classify_fresh (st : CMState) (p : List Char) (l : Int) (cat : Category) (r : List Char)
    (hix : mapGet (getIndexKey p l) st.classificationIndex = none)
    (hflat : ∀ c ∈ flatItems st.classifications, ¬(c.filePath = p ∧ c.line = l)) :
    (classifyLine st p l cat r).classificationIndex
      = st.classificationIndex ++ [(getIndexKey p l, entryOf p l cat r)]
    ∧ (flatItems (classifyLine st p l cat r).classifications).Perm
        (entryOf p l cat r :: flatItems st.classifications) := by
  simp only [classifyLine]
  by_cases hhas : mapHas (cat, r) st.classifications = true
  · obtain ⟨v, hv⟩ : ∃ v, mapGet (cat, r) st.classifications = some v := by
      simpa [mapHas, Option.isSome_iff_exists] using hhas
    have hany : (v.any fun c => decide (c.filePath = p ∧ c.line = l)) = false := by
      rw [List.any_eq_false]
      intro c hc
      have := hflat c (mem_flat_of_mapGet_some hv c hc)
      simp only [decide_eq_true_eq]
      tauto
    rw [if_pos hhas, hv]
    simp only [Option.getD_some]
    rw [if_neg (by rw [hany]; simp)]
    exact ⟨mapSet_of_get_none hix _, flatItems_set_perm _ hv⟩
  · have hnone : mapGet (cat, r) st.classifications = none := by
      rcases hget : mapGet (cat, r) st.classifications with _ | v
      · rfl
      · exact absurd (by simp [mapHas, hget]) hhas
    rw [if_neg hhas]
    have hget0 : mapGet (cat, r) (mapSet (cat, r) ([] : List ClassifiedLine)
        st.classifications) = some [] := mapGet_set_self _ _ _
    rw [hget0]
    simp only [Option.getD_some, List.any_nil, List.nil_append]
    rw [if_neg (by simp)]
    refine ⟨mapSet_of_get_none hix _, ?_⟩
    have hperm := flatItems_set_perm (entryOf p l cat r) hget0
    simp only [List.nil_append] at hperm
    refine hperm.trans ?_
    rw [mapSet_of_get_none hnone, flatItems_append]
    simp [flatItems]



lemma mapGet_append_of_none {κ α : Type} [DecidableEq κ] {k : κ} {a : List (κ × α)}
    (h : mapGet k a = none) (b : List (κ × α)) : mapGet k (a ++ b) = mapGet k b := by
  induction a with
  | nil => simp
  | cons p rest ih =>
      simp only [mapGet] at h ⊢
      split_ifs at h ⊢ with hp
      all_goals first
        | exact absurd h (by simp)
        | exact ih h

lemma classify_fold_invariant :
    ∀ (inserts done : List ((List Char × Int) × Category × List Char)) (st : CMState),
      ((done ++ inserts).map fun i => getIndexKey i.1.1 i.1.2).Nodup →
      st.classificationIndex
        = done.map (fun i => (getIndexKey i.1.1 i.1.2, entryOf i.1.1 i.1.2 i.2.1 i.2.2)) →
      (flatItems st.classifications).Perm
        (done.map fun i => entryOf i.1.1 i.1.2 i.2.1 i.2.2) →
      (inserts.foldl (fun s i => classifyLine s i.1.1 i.1.2 i.2.1 i.2.2) st).classificationIndex
        = ((done ++ inserts).map
            fun i => (getIndexKey i.1.1 i.1.2, entryOf i.1.1 i.1.2 i.2.1 i.2.2))
      ∧ (flatItems
          (inserts.foldl (fun s i => classifyLine s i.1.1 i.1.2 i.2.1 i.2.2) st).classifications).Perm
          ((done ++ inserts).map fun i => entryOf i.1.1 i.1.2 i.2.1 i.2.2) := by
  intro inserts
  induction inserts with
  | nil =>
      intro done st hnd hix hflat
      simp only [List.foldl, List.append_nil]
      exact ⟨hix, hflat⟩
  | cons ins rest ih =>
      intro done st hnd hix hflat
      have hkey_not_done : ∀ i ∈ done, getIndexKey i.1.1 i.1.2 ≠ getIndexKey ins.1.1 ins.1.2 := by
        intro i hi heq
        have : ¬ (List.Disjoint (done.map fun i => getIndexKey i.1.1 i.1.2)
            ((ins :: rest).map fun i => getIndexKey i.1.1 i.1.2)) := by
          intro hdisj
          exact hdisj (List.mem_map.mpr ⟨i, hi, rfl⟩)
            (List.mem_map.mpr ⟨ins, by simp, heq.symm⟩)
        rw [List.map_append] at hnd
        exact this (List.nodup_append.mp hnd).2.2
      have hix_none : mapGet (getIndexKey ins.1.1 ins.1.2) st.classificationIndex = none := by
        rw [hix, mapGet_eq_none_iff]
        rintro pr hpr
        obtain ⟨i, hi, rfl⟩ := List.mem_map.mp hpr
        exact hkey_not_done i hi
      have hflat_nomatch : ∀ c ∈ flatItems st.classifications,
          ¬(c.filePath = ins.1.1 ∧ c.line = ins.1.2) := by
        intro c hc hcontra
        obtain ⟨i, hi, rfl⟩ := List.mem_map.mp (hflat.subset hc)
        apply hkey_not_done i hi
        simp only [entryOf] at hcontra
        rw [getIndexKey, getIndexKey, hcontra.1, hcontra.2]
      obtain ⟨hix', hflat'⟩ := classify_fresh st ins.1.1 ins.1.2 ins.2.1 ins.2.2 hix_none
        hflat_nomatch
      have hnd' : (((done ++ [ins]) ++ rest).map fun i => getIndexKey i.1.1 i.1.2).Nodup := by
        rw [List.append_assoc, List.singleton_append]
        exact hnd
      have hstep := ih (done ++ [ins]) (classifyLine st ins.1.1 ins.1.2 ins.2.1 ins.2.2) hnd'
        (by rw [hix', hix, List.map_append]; rfl)
        (by
          refine hflat'.trans ?_
          rw [List.map_append]
          refine (hflat.cons _).trans ?_
          have hm := @List.perm_middle _ (entryOf ins.1.1 ins.1.2 ins.2.1 ins.2.2)
            (done.map fun i => entryOf i.1.1 i.1.2 i.2.1 i.2.2) []
          simpa using hm.symm)
      rw [List.append_assoc, List.singleton_append] at hstep
      exact hstep



lemma rebuildIndex_eq_flat_fold (st : CMState) :
    (rebuildIndex st).classificationIndex
      = (flatItems st.classifications).foldl
          (fun ix it => mapSet (getIndexKey it.filePath it.line) it ix) [] := by
  simp only [rebuildIndex, flatItems]
  rw [List.foldl_join, List.foldl_map]

lemma fold_mapSet_fresh :
    ∀ (items : List ClassifiedLine) (acc : List ((List Char × Int) × ClassifiedLine)),
      (∀ it ∈ items, mapGet (getIndexKey it.filePath it.line) acc = none) →
      ((items.map fun it => getIndexKey it.filePath it.line).Nodup) →
      items.foldl (fun ix it => mapSet (getIndexKey it.filePath it.line) it ix) acc
        = acc ++ items.map fun it => (getIndexKey it.filePath it.line, it) := by
  intro items
  induction items with
  | nil => intro acc _ _; simp
  | cons it rest ih =>
      intro acc hfresh hnd
      rw [List.map_cons, List.nodup_cons] at hnd
      simp only [List.foldl, List.map_cons]
      rw [mapSet_of_get_none (hfresh it (by simp)) it]
      rw [ih _ ?_ hnd.2]
      · simp
      · intro it2 hit2
        rw [mapGet_append_of_none (hfresh it2 (by simp [hit2])) _]
        simp only [mapGet]
        rw [if_neg ?_]
        intro heq
        exact hnd.1 (heq ▸ List.mem_map.mpr ⟨it2, hit2, rfl⟩)

/-- C7, amended: the explicit rebuild-index-from-groups operation
produces an index that agrees (same lookup result on every key) with the
incrementally maintained index, provided no two inserted classifications
share the same `suffix:line` index key.  (With duplicated keys the two
can disagree, as the counterexample shows: rebuild iterates groups in
group-creation order while the incremental index is overwritten in
chronological order.) -/
theorem C7_rebuild_matches_incremental_on_distinct_keys
    (inserts : List ((List Char × Int) × Category × List Char))
    (hnd : (inserts.map fun i => getIndexKey i.1.1 i.1.2).Nodup) :
    ∀ k,
      mapGet k (rebuildIndex
          (inserts.foldl (fun s i => classifyLine s i.1.1 i.1.2 i.2.1 i.2.2)
            emptyCM)).classificationIndex
        = mapGet k ((inserts.foldl (fun s i => classifyLine s i.1.1 i.1.2 i.2.1 i.2.2)
            emptyCM)).classificationIndex := by
  intro k
  obtain ⟨hix, hflat⟩ := classify_fold_invariant inserts [] emptyCM (by simpa using hnd) rfl
    (by simp [flatItems, emptyCM])
  simp only [List.nil_append] at hix hflat
  have hkeyfun : ∀ it ∈ flatItems ((inserts.foldl
      (fun s i => classifyLine s i.1.1 i.1.2 i.2.1 i.2.2) emptyCM)).classifications,
      True := fun _ _ => trivial
  have hkeysperm : ((flatItems ((inserts.foldl
      (fun s i => classifyLine s i.1.1 i.1.2 i.2.1 i.2.2) emptyCM)).classifications).map
        fun it => getIndexKey it.filePath it.line).Perm
      (inserts.map fun i => getIndexKey i.1.1 i.1.2) := by
    have := hflat.map fun it => getIndexKey it.filePath it.line
    rw [List.map_map] at this
    refine this.trans ?_
    refine List.Perm.of_eq ?_
    refine List.map_congr_left fun i _ => ?_
    simp [entryOf, getIndexKey]
  have hnd_items := hkeysperm.nodup_iff.mpr hnd
  rw [rebuildIndex_eq_flat_fold, fold_mapSet_fresh _ [] (by simp [mapGet]) hnd_items,
    List.nil_append, hix]
  refine mapGet_congr_perm ?_ ?_ k
  · have := hflat.map fun it => (getIndexKey it.filePath it.line, it)
    refine this.trans (List.Perm.of_eq ?_)
    rw [List.map_map]
    refine List.map_congr_left fun i _ => ?_
    simp [entryOf, getIndexKey]
  · have : ((flatItems ((inserts.foldl
        (fun s i => classifyLine s i.1.1 i.1.2 i.2.1 i.2.2) emptyCM)).classifications).map
          fun it => (getIndexKey it.filePath it.line, it)).map Prod.fst
        = (flatItems ((inserts.foldl
          (fun s i => classifyLine s i.1.1 i.1.2 i.2.1 i.2.2) emptyCM)).classifications).map
            fun it => getIndexKey it.filePath it.line := by
      rw [List.map_map]; rfl
    rw [this]
    exact hnd_items


/-- C7, counterexample: three classifications at the same line of three
suffix-matching paths — `u/a/b/c/d/e.c` as Document:r, `w/a/b/c/d/e.c`
as CommentPlanned:s, `v/a/b/c/d/e.c` as Document:r — share one index
key.  Incremental insertion leaves the key mapped to the last insert
(`v/...`), while rebuilding from groups replays `u/...`, `v/...` (the
Document:r group, created first) and then `w/...`, leaving the key
mapped to `w/...`.  The rebuilt index differs from the incremental one
at that key. -/
theorem C7_counterexample :
    mapGet (getIndexKey "u/a/b/c/d/e.c".toList 7)
        (rebuildIndex
          (classifyLine
            (classifyLine (classifyLine emptyCM "u/a/b/c/d/e.c".toList 7 Category.document
              "r".toList)
              "w/a/b/c/d/e.c".toList 7 Category.commentPlanned "s".toList)
            "v/a/b/c/d/e.c".toList 7 Category.document "r".toList)).classificationIndex
      ≠ mapGet (getIndexKey "u/a/b/c/d/e.c".toList 7)
          (classifyLine
            (classifyLine (classifyLine emptyCM "u/a/b/c/d/e.c".toList 7 Category.document
              "r".toList)
              "w/a/b/c/d/e.c".toList 7 Category.commentPlanned "s".toList)
            "v/a/b/c/d/e.c".toList 7 Category.document "r".toList).classificationIndex := by
  decide

/-- C7, witness: two inserts with distinct index keys (same path, lines
7 and 8); rebuild and the incremental index agree at the first key. -/
theorem C7_witness :
    ((([(("u/a/b/c/d/e.c".toList, 7), Category.document, "r".toList),
        (("u/a/b/c/d/e.c".toList, 8), Category.commentPlanned, "s".toList)].map
          fun i => getIndexKey i.1.1 i.1.2).Nodup)
      ∧ mapGet (getIndexKey "u/a/b/c/d/e.c".toList 7)
          (rebuildIndex
            ([(("u/a/b/c/d/e.c".toList, 7), Category.document, "r".toList),
              (("u/a/b/c/d/e.c".toList, 8), Category.commentPlanned, "s".toList)].foldl
              (fun s i => classifyLine s i.1.1 i.1.2 i.2.1 i.2.2)
              emptyCM)).classificationIndex
        = mapGet (getIndexKey "u/a/b/c/d/e.c".toList 7)
            (([(("u/a/b/c/d/e.c".toList, 7), Category.document, "r".toList),
              (("u/a/b/c/d/e.c".toList, 8), Category.commentPlanned, "s".toList)].foldl
              (fun s i => classifyLine s i.1.1 i.1.2 i.2.1 i.2.2)
              emptyCM)).classificationIndex) :=
  ⟨by decide,
   C7_rebuild_matches_incremental_on_distinct_keys
     [(("u/a/b/c/d/e.c".toList, 7), Category.document, "r".toList),
      (("u/a/b/c/d/e.c".toList, 8), Category.commentPlanned, "s".toList)]
     (by decide) (getIndexKey "u/a/b/c/d/e.c".toList 7)⟩

end CovHi

namespace CovHi


/-! ## Coverage parser (src/unnamed/part_003:34-127).  The XML library is
external; the embedding starts from the list of `functionCoverage`
records the parse yields (field values are the strings the library hands
back, `none` for an absent field) and models the line-list parsing and
per-file union building of `parseCoverageXmlContent`. -/

/-- JavaScript `String.trim`. -/
def trimChars (s : List Char) : List Char :=
  ((s.dropWhile Char.isWhitespace).reverse.dropWhile Char.isWhitespace).reverse

/-- Value of the leading decimal-digit run, `none` when there is none
(the NaN case of `parseInt`). -/
def digitsVal (s : List Char) : Option Nat :=
  let ds := s.takeWhile Char.isDigit
  if ds = [] then none
  else some (ds.foldl (fun acc c => acc * 10 + (c.toNat - '0'.toNat)) 0)

/-- JavaScript `parseInt(s, 10)`: skip whitespace, optional sign, then
leading digits; `NaN` (here `none`) when no digit follows.  Note that
`"0"` and `"-5"` parse successfully — `parseInt` enforces no
positivity. -/
def parseIntM (s : List Char) : Option Int :=
  let s1 := s.dropWhile Char.isWhitespace
  match s1 with
  | '-' :: rest => (digitsVal rest).map fun n => -(n : Int)
  | '+' :: rest => (digitsVal rest).map fun n => (n : Int)
  | _ => (digitsVal s1).map fun n => (n : Int)

/-- `parseLineList` (part_003:34-43): empty for `undefined`/`null`/empty
or all-blank strings, otherwise split on commas, trim and `parseInt`
each token and silently drop the `NaN`s. -/
def parseLineList (value : Option (List Char)) : List Int :=
  match value with
  | none => []
  | some s =>
      if s = [] then []
      else if trimChars s = [] then []
      else (splitOnSep ',' s).filterMap fun t => parseIntM (trimChars t)

/-- One `functionCoverage` record as the XML library delivers it
(part_003:91-124 reads these fields). -/
structure FuncRec where
  fileName : Option (List Char)
  coveredStatementList : Option (List Char)
  unCoveredStatementList : Option (List Char)
  partialCoveredStatementList : Option (List Char)
  deriving DecidableEq

def emptyFileCoverage (name : List Char) : FileCoverage := ⟨name, ∅, ∅, ∅⟩

/-- Body of the `for (const fc of functionCoverages)` loop
(part_003:91-124): skip records with a falsy `fileName` (absent or the
empty string), get or create the file entry, and union the three parsed
line lists into its sets. -/
def addRecord (files : List (List Char × FileCoverage)) (fc : FuncRec) :
    List (List Char × FileCoverage) :=
  match fc.fileName with
  | none => files
  | some name =>
      if name = [] then files
      else
        let fileCov := (mapGet name files).getD (emptyFileCoverage name)
        let fileCov2 : FileCoverage :=
          { fileCov with
            coveredLines := (parseLineList fc.coveredStatementList).foldl
              (fun s n => insert n s) fileCov.coveredLines
            uncoveredLines := (parseLineList fc.unCoveredStatementList).foldl
              (fun s n => insert n s) fileCov.uncoveredLines
            partialCoveredLines := (parseLineList fc.partialCoveredStatementList).foldl
              (fun s n => insert n s) fileCov.partialCoveredLines }
        mapSet name fileCov2 files

/-- The `files` map built by `parseCoverageXmlContent`
(part_003:79-126). -/
def parseFiles (records : List FuncRec) : List (List Char × FileCoverage) :=
  records.foldl addRecord []

/-- Covered set of a file in the parse result (`∅` when the file is
absent). -/
def coveredOf (files : List (List Char × FileCoverage)) (name : List Char) : Finset Int :=
  ((mapGet name files).map FileCoverage.coveredLines).getD ∅

def uncoveredOf (files : List (List Char × FileCoverage)) (name : List Char) : Finset Int :=
  ((mapGet name files).map FileCoverage.uncoveredLines).getD ∅

def partialOf (files : List (List Char × FileCoverage)) (name : List Char) : Finset Int :=
  ((mapGet name files).map FileCoverage.partialCoveredLines).getD ∅

lemma foldl_insert_mem (l : List Int) (s0 : Finset Int) (n : Int) :
    n ∈ l.foldl (fun s x => insert x s) s0 ↔ n ∈ s0 ∨ n ∈ l := by
  induction l generalizing s0 with
  | nil => simp
  | cons x rest ih =>
      simp only [List.foldl, ih, Finset.mem_insert, List.mem_cons]
      tauto

lemma getD_covered (acc : List (List Char × FileCoverage)) (name : List Char) :
    ((mapGet name acc).getD (emptyFileCoverage name)).coveredLines = coveredOf acc name := by
  cases h : mapGet name acc <;> simp [coveredOf, h, emptyFileCoverage]

lemma getD_uncovered (acc : List (List Char × FileCoverage)) (name : List Char) :
    ((mapGet name acc).getD (emptyFileCoverage name)).uncoveredLines = uncoveredOf acc name := by
  cases h : mapGet name acc <;> simp [uncoveredOf, h, emptyFileCoverage]

lemma getD_partialCov (acc : List (List Char × FileCoverage)) (name : List Char) :
    ((mapGet name acc).getD (emptyFileCoverage name)).partialCoveredLines
      = partialOf acc name := by
  cases h : mapGet name acc <;> simp [partialOf, h, emptyFileCoverage]

lemma addRecord_covered_mem (acc : List (List Char × FileCoverage)) (fc : FuncRec)
    (name : List Char) (n : Int) :
    n ∈ coveredOf (addRecord acc fc) name ↔
      (n ∈ coveredOf acc name ∨ (fc.fileName = some name ∧ name ≠ [] ∧
        n ∈ parseLineList fc.coveredStatementList)) := by
  unfold addRecord
  cases hfn : fc.fileName with
  | none => simp
  | some name2 =>
      dsimp only
      by_cases hempty : name2 = []
      · subst hempty
        rw [if_pos rfl]
        first
          | tauto
          | (simp only [Option.some.injEq] at *; tauto)
      · rw [if_neg hempty]
        by_cases hname : name2 = name
        · subst hname
          rw [coveredOf, mapGet_set_self]
          rw [show ∀ (x : FileCoverage), (Option.map FileCoverage.coveredLines (some x)).getD ∅ = FileCoverage.coveredLines x from
            fun _ => rfl]
          rw [foldl_insert_mem, getD_covered]
          first
            | tauto
            | (simp only [Option.some.injEq] at *; tauto)
        · rw [coveredOf, mapGet_set_other (fun hh => hname hh.symm)]
          rw [show (((mapGet name acc).map FileCoverage.coveredLines).getD ∅) = coveredOf acc name from rfl]
          first
            | tauto
            | (simp only [Option.some.injEq] at *; tauto)
lemma addRecord_uncovered_mem (acc : List (List Char × FileCoverage)) (fc : FuncRec)
    (name : List Char) (n : Int) :
    n ∈ uncoveredOf (addRecord acc fc) name ↔
      (n ∈ uncoveredOf acc name ∨ (fc.fileName = some name ∧ name ≠ [] ∧
        n ∈ parseLineList fc.unCoveredStatementList)) := by
  unfold addRecord
  cases hfn : fc.fileName with
  | none => simp
  | some name2 =>
      dsimp only
      by_cases hempty : name2 = []
      · subst hempty
        rw [if_pos rfl]
        first
          | tauto
          | (simp only [Option.some.injEq] at *; tauto)
      · rw [if_neg hempty]
        by_cases hname : name2 = name
        · subst hname
          rw [uncoveredOf, mapGet_set_self]
          rw [show ∀ (x : FileCoverage), (Option.map FileCoverage.uncoveredLines (some x)).getD ∅ = FileCoverage.uncoveredLines x from
            fun _ => rfl]
          rw [foldl_insert_mem, getD_uncovered]
          first
            | tauto
            | (simp only [Option.some.injEq] at *; tauto)
        · rw [uncoveredOf, mapGet_set_other (fun hh => hname hh.symm)]
          rw [show (((mapGet name acc).map FileCoverage.uncoveredLines).getD ∅) = uncoveredOf acc name from rfl]
          first
            | tauto
            | (simp only [Option.some.injEq] at *; tauto)
lemma addRecord_partialStmts_mem (acc : List (List Char × FileCoverage)) (fc : FuncRec)
    (name : List Char) (n : Int) :
    n ∈ partialOf (addRecord acc fc) name ↔
      (n ∈ partialOf acc name ∨ (fc.fileName = some name ∧ name ≠ [] ∧
        n ∈ parseLineList fc.partialCoveredStatementList)) := by
  unfold addRecord
  cases hfn : fc.fileName with
  | none => simp
  | some name2 =>
      dsimp only
      by_cases hempty : name2 = []
      · subst hempty
        rw [if_pos rfl]
        first
          | tauto
          | (simp only [Option.some.injEq] at *; tauto)
      · rw [if_neg hempty]
        by_cases hname : name2 = name
        · subst hname
          rw [partialOf, mapGet_set_self]
          rw [show ∀ (x : FileCoverage), (Option.map FileCoverage.partialCoveredLines (some x)).getD ∅ = FileCoverage.partialCoveredLines x from
            fun _ => rfl]
          rw [foldl_insert_mem, getD_partialCov]
          first
            | tauto
            | (simp only [Option.some.injEq] at *; tauto)
        · rw [partialOf, mapGet_set_other (fun hh => hname hh.symm)]
          rw [show (((mapGet name acc).map FileCoverage.partialCoveredLines).getD ∅) = partialOf acc name from rfl]
          first
            | tauto
            | (simp only [Option.some.injEq] at *; tauto)
lemma parseFiles_mem_aux :
    ∀ (rs : List FuncRec) (acc : List (List Char × FileCoverage)) (name : List Char) (n : Int),
      (n ∈ coveredOf (rs.foldl addRecord acc) name ↔
        (n ∈ coveredOf acc name ∨ ∃ fc ∈ rs, fc.fileName = some name ∧ name ≠ [] ∧
          n ∈ parseLineList fc.coveredStatementList))
      ∧ (n ∈ uncoveredOf (rs.foldl addRecord acc) name ↔
        (n ∈ uncoveredOf acc name ∨ ∃ fc ∈ rs, fc.fileName = some name ∧ name ≠ [] ∧
          n ∈ parseLineList fc.unCoveredStatementList))
      ∧ (n ∈ partialOf (rs.foldl addRecord acc) name ↔
        (n ∈ partialOf acc name ∨ ∃ fc ∈ rs, fc.fileName = some name ∧ name ≠ [] ∧
          n ∈ parseLineList fc.partialCoveredStatementList)) := by
  intro rs
  induction rs with
  | nil => intro acc name n; simp
  | cons fc rest ih =>
      intro acc name n
      simp only [List.foldl]
      refine ⟨?_, ?_, ?_⟩
      · rw [(ih (addRecord acc fc) name n).1, addRecord_covered_mem]
        simp only [List.mem_cons]
        constructor
        · rintro ((h | h) | ⟨g, hg, hprop⟩)
          · exact Or.inl h
          · exact Or.inr ⟨fc, Or.inl rfl, h⟩
          · exact Or.inr ⟨g, Or.inr hg, hprop⟩
        · rintro (h | ⟨g, (rfl | hg), hprop⟩)
          · exact Or.inl (Or.inl h)
          · exact Or.inl (Or.inr hprop)
          · exact Or.inr ⟨g, hg, hprop⟩
      · rw [(ih (addRecord acc fc) name n).2.1, addRecord_uncovered_mem]
        simp only [List.mem_cons]
        constructor
        · rintro ((h | h) | ⟨g, hg, hprop⟩)
          · exact Or.inl h
          · exact Or.inr ⟨fc, Or.inl rfl, h⟩
          · exact Or.inr ⟨g, Or.inr hg, hprop⟩
        · rintro (h | ⟨g, (rfl | hg), hprop⟩)
          · exact Or.inl (Or.inl h)
          · exact Or.inl (Or.inr hprop)
          · exact Or.inr ⟨g, hg, hprop⟩
      · rw [(ih (addRecord acc fc) name n).2.2, addRecord_partialStmts_mem]
        simp only [List.mem_cons]
        constructor
        · rintro ((h | h) | ⟨g, hg, hprop⟩)
          · exact Or.inl h
          · exact Or.inr ⟨fc, Or.inl rfl, h⟩
          · exact Or.inr ⟨g, Or.inr hg, hprop⟩
        · rintro (h | ⟨g, (rfl | hg), hprop⟩)
          · exact Or.inl (Or.inl h)
          · exact Or.inl (Or.inr hprop)
          · exact Or.inr ⟨g, hg, hprop⟩

/-- C8, amended: for every parsed report and file, each of the three
sets is exactly the union, over that file's records, of the integers
`parseInt` extracts from the corresponding statement list.  Neither
positivity nor pairwise disjointness is enforced: zero or negative
tokens are kept, and a line listed in two different statement lists (or
covered in one record and uncovered in another for the same file) lands
in both sets. -/
theorem C8_sets_are_record_unions (records : List FuncRec) (name : List Char) (n : Int) :
    (n ∈ coveredOf (parseFiles records) name ↔
      ∃ fc ∈ records, fc.fileName = some name ∧ name ≠ [] ∧
        n ∈ parseLineList fc.coveredStatementList)
    ∧ (n ∈ uncoveredOf (parseFiles records) name ↔
      ∃ fc ∈ records, fc.fileName = some name ∧ name ≠ [] ∧
        n ∈ parseLineList fc.unCoveredStatementList)
    ∧ (n ∈ partialOf (parseFiles records) name ↔
      ∃ fc ∈ records, fc.fileName = some name ∧ name ≠ [] ∧
        n ∈ parseLineList fc.partialCoveredStatementList) := by
  have h := parseFiles_mem_aux records [] name n
  simp only [parseFiles]
  rcases h with ⟨h1, h2, h3⟩
  refine ⟨?_, ?_, ?_⟩
  · rw [h1]; simp [coveredOf, mapGet]
  · rw [h2]; simp [uncoveredOf, mapGet]
  · rw [h3]; simp [partialOf, mapGet]

/-- C8, counterexample: a single record for `a.c` with
`coveredStatementList = "0"` and `unCoveredStatementList = "0"` puts
line 0 into both the covered and the uncovered set of `a.c` — the sets
are not disjoint, and 0 is not a positive line number. -/
theorem C8_counterexample :
    (0 : Int) ∈ coveredOf (parseFiles [⟨some "a.c".toList, some "0".toList, some "0".toList, none⟩]) "a.c".toList
    ∧ (0 : Int) ∈ uncoveredOf (parseFiles [⟨some "a.c".toList, some "0".toList, some "0".toList, none⟩]) "a.c".toList
    ∧ ¬(1 ≤ (0 : Int)) := by
  refine ⟨by decide, by decide, by decide⟩


end CovHi
